import Mathlib

/-!
Verification of the orbit-data pipeline of the Chaos-deep-classifier
repository (Main_notebook.ipynb): the train/validation partition, the
resolution computation, and the JHMAP external-trajectory ingestion
(truncation, axis-wise max-abs normalization, row-major reshape).

Python floats are modelled as exact rationals; a non-finite float value
(NaN or an infinity, as produced by dividing by zero) is modelled as
`none : Option ℚ`.
-/

namespace ChaosDC

/-- A pipeline value: a finite Python float modelled as a rational, with
`none` standing for a non-finite float (NaN or an infinity). -/
abbrev Val := Option ℚ

/-- Python float division `a / b`: dividing by zero yields a non-finite
float (`0.0/0.0` is NaN, `x/0.0` is an infinity), modelled as `none`;
otherwise the exact quotient. -/
def pyDiv (a b : ℚ) : Val := if b = 0 then none else some (a / b)

/-- Python `int(q)` on a float: truncation toward zero. -/
def pyInt (q : ℚ) : ℤ := if 0 ≤ q then ⌊q⌋ else ⌈q⌉

/-- Python slice `d[:k]` for `k ≥ 0`: the first `k` entries. -/
def sliceTo {α : Type} (l : List α) (k : ℕ) : List α := l.take k

/-- Python slice `d[-k:]` for `k ≥ 0`: the last `k` entries when `1 ≤ k`
(the whole list when `k` exceeds the length), and the whole list when
`k = 0`, because `d[-0:]` is `d[0:]`. -/
def sliceFromNeg {α : Type} (l : List α) (k : ℕ) : List α :=
  if k = 0 then l else l.drop (l.length - k)

/-- `res = int(np.sqrt(2*n_points))` (Main_notebook, first code cell):
the integer part of the square root, i.e. its floor. -/
def resOfPoints (n_points : ℕ) : ℕ := Nat.sqrt (2 * n_points)

/-- The spec's words for the resolution: `ceil(sqrt(2 × n_points))`,
written over ℕ as the least `k` with `2 × n_points ≤ k²`. -/
def resOfPointsSpec (n_points : ℕ) : ℕ :=
  if Nat.sqrt (2 * n_points) * Nat.sqrt (2 * n_points) = 2 * n_points
  then Nat.sqrt (2 * n_points) else Nat.sqrt (2 * n_points) + 1

/-- `int(frac*Np)`, the training-slice bound of the partition cell. -/
def trainLen (n : ℕ) (frac : ℚ) : ℕ := (pyInt (frac * n)).toNat

/-- `int((1-frac)*Np)`, the validation-slice bound of the partition cell. -/
def valLen (n : ℕ) (frac : ℚ) : ℕ := (pyInt ((1 - frac) * n)).toNat

/-- The partition cell of Main_notebook applied to the already shuffled
grid and label sequences:
`data_train = [d[:int(frac*Np)] for d in data_SM]` and
`data_val = [d[-int((1-frac)*Np):] for d in data_SM]`,
with `Np = int(len(data_SM[0]))`. -/
def split {G L : Type} (g : List G) (l : List L) (frac : ℚ) :
    (List G × List L) × (List G × List L) :=
  ((sliceTo g (trainLen g.length frac), sliceTo l (trainLen g.length frac)),
   (sliceFromNeg g (valLen g.length frac), sliceFromNeg l (valLen g.length frac)))

/-- Apply a permutation given as a list of indices: entry `k` of the result
is the `p[k]`-th entry of `l` (out-of-range indices contribute nothing). -/
def applyPerm {α : Type} (p : List ℕ) (l : List α) : List α :=
  p.filterMap (fun i => l[i]?)

/-- Modelled from the spec: `sklearn.utils.shuffle` is external to the
repository; the spec requires a permutation generated deterministically from
an optional RNG seed. A linear-congruential generator supplies the
pseudo-random numbers. -/
def lcgNext (s : ℕ) : ℕ := (1103515245 * s + 12345) % 2147483648

/-- Modelled from the spec: a selection shuffle — repeatedly pick a
pseudo-randomly chosen remaining index. -/
def pickPerm : ℕ → ℕ → List ℕ → List ℕ
  | 0, _, _ => []
  | _ + 1, _, [] => []
  | fuel + 1, s, x :: xs =>
    (x :: xs).getD (s % (x :: xs).length) 0 ::
      pickPerm fuel (lcgNext s) ((x :: xs).eraseIdx (s % (x :: xs).length))

/-- Modelled from the spec: the random permutation of `0 .. n-1` generated
from a seed. -/
def permOfSeed (seed n : ℕ) : List ℕ := pickPerm n (lcgNext seed) (List.range n)

/-- Modelled from the spec: `shuffle(X_train, y)` with an explicit RNG seed —
one permutation of indices, applied identically to grids and labels. -/
def shuffleSeeded {G L : Type} (seed : ℕ) (g : List G) (l : List L) :
    List G × List L :=
  (applyPerm (permOfSeed seed g.length) g, applyPerm (permOfSeed seed g.length) l)

/-- The seeded shuffle followed by the notebook's train/validation split. -/
def splitSeeded {G L : Type} (seed : ℕ) (g : List G) (l : List L) (frac : ℚ) :
    (List G × List L) × (List G × List L) :=
  split (shuffleSeeded seed g l).1 (shuffleSeeded seed g l).2 frac

/-- The only failure mode of the modelled pipeline: `numpy.reshape` applied
to an incompatible element count (the spec's ShapeError). -/
inductive PipeError where
  | shapeError
deriving DecidableEq

/-- A numpy array of shape `res × res`, as produced by
`testX.reshape(res,res)`: row-major flat data of `res * res` values; cell
`(i, j)` is flat entry `res * i + j` (numpy strided layout). -/
structure Grid where
  res : ℕ
  data : List Val
deriving DecidableEq

/-- Cell `(i, j)` of a grid: flat entry `res * i + j` of the row-major data. -/
def Grid.cell (g : Grid) (i j : ℕ) : Option Val := g.data[g.res * i + j]?

/-- `testX.reshape(res, res)` on the flattened value sequence of a
trajectory: succeeds exactly when the number of values is `res * res`,
keeping the row-major order; otherwise numpy raises (the ShapeError). -/
def discretize (t : List Val) (res : ℕ) : Except PipeError Grid :=
  if t.length = res * res then .ok ⟨res, t⟩ else .error .shapeError

/-- `max(np.abs(column))` over one coordinate column, as a fold starting at 0
(on a nonempty column this is the maximum absolute value; the empty case is
never consulted by the ingestion loop). -/
def maxAbs (l : List ℚ) : ℚ := l.foldl (fun a x => max a |x|) 0

/-- The normalization loop of the JHMAP ingestion cell: truncate to the
first `n` rows (`np.loadtxt(...)[:n_points]`), then divide each coordinate
of each row by the maximum absolute value of its own axis over the
truncated rows. -/
def normalizeTrunc (rows : List (ℚ × ℚ)) (n : ℕ) : List (Val × Val) :=
  (rows.take n).map
    (fun p => (pyDiv p.1 (maxAbs ((rows.take n).map Prod.fst)),
               pyDiv p.2 (maxAbs ((rows.take n).map Prod.snd))))

/-- One iteration of the JHMAP ingestion loop: truncate, normalize each axis
by its own max-abs, flatten the `(n, 2)` array row-major and reshape it to
`res × res`. -/
def ingestFile (rows : List (ℚ × ℚ)) (n res : ℕ) : Except PipeError Grid :=
  discretize ((normalizeTrunc rows n).flatMap (fun q => [q.1, q.2])) res

/-- The whole JHMAP ingestion loop: one grid and one label appended per
file, in file order; a reshape failure aborts the whole batch. -/
def ingestAll (files : List (List (ℚ × ℚ) × ℤ)) (n res : ℕ) :
    Except PipeError (List Grid × List ℤ) :=
  match files with
  | [] => .ok ([], [])
  | (rows, lab) :: rest =>
    match ingestFile rows n res with
    | .error e => .error e
    | .ok g =>
      match ingestAll rest n res with
      | .error e => .error e
      | .ok pr => .ok (g :: pr.1, lab :: pr.2)

/-- Modelled from the spec: `load_data_SM` / `load_data_deVog` /
`load_data_Web` (generate_data.py, absent from src/) assemble, for each
curated entry, one grid through the simulator and the discretizer and one
label, in entry order. -/
def assemble {P : Type} (entries : List (P × ℤ)) (makeGrid : P → Grid) :
    List Grid × List ℤ :=
  (entries.map (fun e => makeGrid e.1), entries.map (fun e => e.2))

/-- Split the row-major data into `fuel` consecutive rows of `r` entries. -/
def chunkAux {α : Type} (r : ℕ) : ℕ → List α → List (List α)
  | 0, _ => []
  | fuel + 1, l => if l.isEmpty then [] else l.take r :: chunkAux r fuel (l.drop r)

/-- The `res` rows of a grid, each of `res` cells (the 2-d view of the
row-major data). -/
def Grid.toRows (g : Grid) : List (List Val) := chunkAux g.res g.res g.data

/-- Modelled from the spec: the trailing singleton channel dimension added
for classifier compatibility by `produce_iterator` (generate_data.py, absent
from src/); a `(res, res)` array becomes `(res, res, 1)`. -/
def Grid.withChannel (g : Grid) : List (List (List Val)) :=
  g.toRows.map (fun row => row.map (fun v => [v]))

/-! ### Helper lemmas -/

lemma pyInt_of_nonneg {q : ℚ} (h : 0 ≤ q) : pyInt q = ⌊q⌋ := if_pos h

lemma sliceFromNeg_zero {α : Type} (l : List α) : sliceFromNeg l 0 = l := if_pos rfl

lemma sliceFromNeg_of_pos {α : Type} (l : List α) {k : ℕ} (h : k ≠ 0) :
    sliceFromNeg l k = l.drop (l.length - k) := if_neg h

lemma length_sliceFromNeg {α : Type} (l : List α) {k : ℕ} (h1 : 1 ≤ k)
    (h2 : k ≤ l.length) : (sliceFromNeg l k).length = k := by
  rw [sliceFromNeg_of_pos l (by omega), List.length_drop]
  omega

lemma sqrt_eq_of {m k : ℕ} (h1 : k * k ≤ m) (h2 : m < (k + 1) * (k + 1)) :
    Nat.sqrt m = k := by
  have hle : k ≤ Nat.sqrt m := by
    have h := Nat.sqrt_le_sqrt h1
    rwa [Nat.sqrt_eq] at h
  have hlt : Nat.sqrt m < k + 1 := Nat.sqrt_lt.mpr h2
  omega

lemma floor_frac_le {f : ℚ} {n : ℕ} (h0 : 0 ≤ f) (h1 : f ≤ 1) :
    (pyInt (f * n)).toNat ≤ n := by
  have hnn : (0 : ℚ) ≤ f * n := mul_nonneg h0 (Nat.cast_nonneg n)
  have hle : f * (n : ℚ) ≤ n := by nlinarith [Nat.cast_nonneg (α := ℚ) n]
  have hfl : ⌊f * (n : ℚ)⌋ ≤ (n : ℤ) := by
    have h := Int.floor_le_floor hle
    simpa using h
  rw [pyInt_of_nonneg hnn]
  omega

lemma trainLen_le {n : ℕ} {f : ℚ} (h0 : 0 ≤ f) (h1 : f ≤ 1) : trainLen n f ≤ n :=
  floor_frac_le h0 h1

lemma valLen_le {n : ℕ} {f : ℚ} (h0 : 0 ≤ f) (h1 : f ≤ 1) : valLen n f ≤ n :=
  floor_frac_le (by linarith) (by linarith)

lemma trainLen_add_valLen_le {n : ℕ} {f : ℚ} (h0 : 0 ≤ f) (h1 : f ≤ 1) :
    trainLen n f + valLen n f ≤ n := by
  have ha : (0 : ℚ) ≤ f * n := mul_nonneg h0 (Nat.cast_nonneg n)
  have hb : (0 : ℚ) ≤ (1 - f) * n := mul_nonneg (by linarith) (Nat.cast_nonneg n)
  have hfl : (⌊f * (n : ℚ)⌋ : ℚ) ≤ f * n := Int.floor_le _
  have hfl2 : (⌊(1 - f) * (n : ℚ)⌋ : ℚ) ≤ (1 - f) * n := Int.floor_le _
  have hflip : f * (n : ℚ) + (1 - f) * n = (n : ℚ) := by ring
  have hsum : ((⌊f * (n : ℚ)⌋ + ⌊(1 - f) * (n : ℚ)⌋ : ℤ) : ℚ) ≤ (n : ℚ) := by
    push_cast
    linarith
  have hsum' : ⌊f * (n : ℚ)⌋ + ⌊(1 - f) * (n : ℚ)⌋ ≤ (n : ℤ) := by
    exact_mod_cast hsum
  have hpa : (0 : ℤ) ≤ ⌊f * (n : ℚ)⌋ := Int.floor_nonneg.mpr ha
  have hpb : (0 : ℤ) ≤ ⌊(1 - f) * (n : ℚ)⌋ := Int.floor_nonneg.mpr hb
  unfold trainLen valLen
  rw [pyInt_of_nonneg ha, pyInt_of_nonneg hb]
  omega

lemma getElem?_zip {G L : Type} (g : List G) (l : List L) (i : ℕ) :
    (List.zip g l)[i]? = (g[i]?).bind (fun a => (l[i]?).map (fun b => (a, b))) := by
  induction g generalizing l i with
  | nil => simp
  | cons a g ih =>
    cases l with
    | nil => cases h : (a :: g)[i]? <;> simp [h]
    | cons b l =>
      cases i with
      | zero => simp
      | succ i => simpa using ih l i

lemma zip_applyPerm {G L : Type} (p : List ℕ) (g : List G) (l : List L)
    (hlen : g.length = l.length) :
    List.zip (applyPerm p g) (applyPerm p l) = applyPerm p (List.zip g l) := by
  induction p with
  | nil => rfl
  | cons i p ih =>
    unfold applyPerm at ih ⊢
    rw [List.filterMap_cons, List.filterMap_cons, List.filterMap_cons]
    cases hg : g[i]? with
    | none =>
      have hl : l[i]? = none := by
        rw [List.getElem?_eq_none_iff] at hg ⊢
        omega
      have hz : (List.zip g l)[i]? = none := by
        rw [getElem?_zip, hg]
        rfl
      rw [hl, hz]
      exact ih
    | some a =>
      have hi : i < g.length := by
        rcases List.getElem?_eq_some_iff.mp hg with ⟨h, _⟩
        exact h
      have hil : i < l.length := by omega
      have hb : l[i]? = some l[i] := List.getElem?_eq_getElem hil
      have hz : (List.zip g l)[i]? = some (a, l[i]) := by
        rw [getElem?_zip, hg, hb]
        rfl
      rw [hb, hz, List.zip_cons_cons, ih]

lemma length_applyPerm {α : Type} (p : List ℕ) (l : List α)
    (hp : ∀ i ∈ p, i < l.length) : (applyPerm p l).length = p.length := by
  induction p with
  | nil => rfl
  | cons i p ih =>
    unfold applyPerm at ih ⊢
    rw [List.filterMap_cons]
    have hi : i < l.length := hp i (by simp)
    rw [List.getElem?_eq_getElem hi]
    simp only [List.length_cons]
    rw [ih (fun j hj => hp j (by simp [hj]))]

lemma mem_of_mem_applyPerm {α : Type} {p : List ℕ} {l : List α} {x : α}
    (h : x ∈ applyPerm p l) : x ∈ l := by
  rcases List.mem_filterMap.mp h with ⟨i, _, hi⟩
  exact List.getElem?_mem hi

lemma zip_take {G L : Type} (g : List G) (l : List L) (k : ℕ) :
    List.zip (g.take k) (l.take k) = (List.zip g l).take k := by
  induction g generalizing l k with
  | nil => simp
  | cons a g ih =>
    cases l with
    | nil => simp
    | cons b l =>
      cases k with
      | zero => simp
      | succ k => simp [ih]

lemma zip_drop {G L : Type} (g : List G) (l : List L) (k : ℕ) :
    List.zip (g.drop k) (l.drop k) = (List.zip g l).drop k := by
  induction g generalizing l k with
  | nil => simp
  | cons a g ih =>
    cases l with
    | nil => simp
    | cons b l =>
      cases k with
      | zero => simp
      | succ k => simp [ih]

lemma length_flatMap_pair {α β : Type} (f h : α → β) (l : List α) :
    (l.flatMap (fun a => [f a, h a])).length = 2 * l.length := by
  induction l with
  | nil => rfl
  | cons a l ih =>
    rw [List.flatMap_cons, List.length_append, ih]
    simp only [List.length_cons, List.length_nil]
    omega

lemma getElem?_flatMap_pair {α β : Type} (f h : α → β) (l : List α) (m : ℕ) :
    (l.flatMap (fun a => [f a, h a]))[m]? =
      if m % 2 = 0 then (l[m / 2]?).map f else (l[m / 2]?).map h := by
  induction l generalizing m with
  | nil => simp
  | cons a l ih =>
    match m with
    | 0 => simp
    | 1 => simp
    | (k + 2) =>
      rw [List.flatMap_cons]
      have hstep : ([f a, h a] ++ l.flatMap (fun a => [f a, h a]))[k + 2]? =
          (l.flatMap (fun a => [f a, h a]))[k]? := by
        rw [List.getElem?_append_right (by simp)]
        simp
      rw [hstep, ih]
      have h2 : (k + 2) % 2 = k % 2 := Nat.add_mod_right k 2
      have h3 : (k + 2) / 2 = k / 2 + 1 := Nat.add_div_right k (by norm_num)
      rw [h2, h3]
      simp [List.getElem?_cons_succ]

lemma le_foldl_max (l : List ℚ) (a : ℚ) : a ≤ l.foldl (fun b x => max b |x|) a := by
  induction l generalizing a with
  | nil => exact le_refl a
  | cons x l ih =>
    rw [List.foldl_cons]
    exact le_trans (le_max_left a |x|) (ih (max a |x|))

lemma abs_le_foldl_max {l : List ℚ} {x : ℚ} (h : x ∈ l) :
    ∀ a : ℚ, |x| ≤ l.foldl (fun b y => max b |y|) a := by
  induction l with
  | nil => cases h
  | cons y l ih =>
    intro a
    rw [List.foldl_cons]
    rcases List.mem_cons.mp h with hx | hx
    · subst hx
      exact le_trans (le_max_right a |x|) (le_foldl_max l (max a |x|))
    · exact ih hx (max a |y|)

lemma abs_le_maxAbs {l : List ℚ} {x : ℚ} (h : x ∈ l) : |x| ≤ maxAbs l :=
  abs_le_foldl_max h 0

lemma maxAbs_nonneg (l : List ℚ) : 0 ≤ maxAbs l := le_foldl_max l 0

lemma chunkAux_spec {α : Type} (r : ℕ) (hr : 0 < r) :
    ∀ (k : ℕ) (l : List α), l.length = r * k →
      (chunkAux r k l).length = k ∧ ∀ row ∈ chunkAux r k l, row.length = r := by
  intro k
  induction k with
  | zero =>
    intro l h
    simp [chunkAux]
  | succ k ih =>
    intro l h
    have hne : ¬ (l.isEmpty = true) := by
      rw [List.isEmpty_iff]
      intro h0
      subst h0
      simp at h
      omega
    have hrl : r ≤ l.length := by
      rw [h]
      have : r * 1 ≤ r * (k + 1) := Nat.mul_le_mul_left r (by omega)
      omega
    have hlen : (l.drop r).length = r * k := by
      rw [List.length_drop, h]
      have : r * (k + 1) = r * k + r := by ring
      omega
    obtain ⟨ih1, ih2⟩ := ih (l.drop r) hlen
    rw [chunkAux, if_neg hne]
    refine ⟨by simpa using ih1, ?_⟩
    intro row hrow
    rcases List.mem_cons.mp hrow with h1 | h1
    · subst h1
      rw [List.length_take]
      omega
    · exact ih2 row h1

lemma ingestAll_lengths (files : List (List (ℚ × ℚ) × ℤ)) (n res : ℕ)
    (orbits : List Grid) (labs : List ℤ)
    (h : ingestAll files n res = .ok (orbits, labs)) :
    orbits.length = labs.length := by
  induction files generalizing orbits labs with
  | nil =>
    simp [ingestAll] at h
    rw [h.1, h.2]
    rfl
  | cons fl rest ih =>
    obtain ⟨rows, lab⟩ := fl
    rw [ingestAll] at h
    cases hg : ingestFile rows n res with
    | error e => rw [hg] at h; simp at h
    | ok g =>
      rw [hg] at h
      cases hr : ingestAll rest n res with
      | error e => rw [hr] at h; simp at h
      | ok pr =>
        rw [hr] at h
        simp at h
        have hlen := ih pr.1 pr.2 (by rw [hr])
        rw [← h.1, ← h.2]
        simpa using hlen

lemma ingestAll_pairing (files : List (List (ℚ × ℚ) × ℤ)) (n res : ℕ)
    (orbits : List Grid) (labs : List ℤ)
    (h : ingestAll files n res = .ok (orbits, labs)) :
    ∀ k : ℕ, labs[k]? = (files[k]?).map (fun fl => fl.2) ∧
      orbits[k]? = (files[k]?).bind (fun fl => (ingestFile fl.1 n res).toOption) := by
  induction files generalizing orbits labs with
  | nil =>
    simp [ingestAll] at h
    intro k
    rw [h.1, h.2]
    simp
  | cons fl rest ih =>
    obtain ⟨rows, lab⟩ := fl
    rw [ingestAll] at h
    cases hg : ingestFile rows n res with
    | error e => rw [hg] at h; simp at h
    | ok g =>
      rw [hg] at h
      cases hr : ingestAll rest n res with
      | error e => rw [hr] at h; simp at h
      | ok pr =>
        rw [hr] at h
        simp at h
        intro k
        cases k with
        | zero =>
          rw [← h.1, ← h.2]
          constructor
          · simp
          · simp [hg, Except.toOption]
        | succ k =>
          rw [← h.1, ← h.2]
          have hik := ih pr.1 pr.2 (by rw [hr]) k
          simpa using hik

/-! ### Claim theorems -/

/-- C3 counterexample: at `n_points = 5` the code computes
`res = int(np.sqrt(10)) = 3`, while the claim's `ceil(sqrt(10))` is 4. -/
theorem resOfPoints_five_ne_ceil :
    resOfPoints 5 = 3 ∧ resOfPointsSpec 5 = 4 ∧ resOfPoints 5 ≠ resOfPointsSpec 5 := by
  have hs : Nat.sqrt 10 = 3 := sqrt_eq_of (by norm_num) (by norm_num)
  have h1 : resOfPoints 5 = 3 := by
    unfold resOfPoints
    norm_num [hs]
  have h2 : resOfPointsSpec 5 = 4 := by
    unfold resOfPointsSpec
    norm_num [hs]
  exact ⟨h1, h2, by rw [h1, h2]; norm_num⟩

/-- C3 (amended): the code computes `res = int(np.sqrt(2*n_points))`, the
floor of the square root of `2·n_points`; this agrees with the spec's
`ceil(sqrt(2 × n_points))` exactly when `2·n_points` is a perfect square, as
in the reference configuration `n_points = 450`, `res = 30`. -/
theorem resOfPoints_floor_sqrt (n k : ℕ) (h : k * k = 2 * n) :
    resOfPoints n = k ∧ resOfPoints n = resOfPointsSpec n ∧
    resOfPoints n * resOfPoints n ≤ 2 * n ∧
    2 * n < (resOfPoints n + 1) * (resOfPoints n + 1) := by
  have hs : Nat.sqrt (2 * n) = k := by
    rw [← h, Nat.sqrt_eq]
  have h1 : resOfPoints n = k := hs
  have h2 : resOfPointsSpec n = k := by
    unfold resOfPointsSpec
    rw [hs, if_pos h]
  refine ⟨h1, by rw [h1, h2], ?_, ?_⟩
  · exact Nat.sqrt_le (2 * n)
  · have := Nat.lt_succ_sqrt (2 * n)
    simpa [Nat.succ_eq_add_one] using this

/-- Witness for C3 (amended) at the reference configuration. -/
theorem resOfPoints_floor_sqrt_witness :
    30 * 30 = 2 * 450 ∧ (resOfPoints 450 = 30 ∧ resOfPoints 450 = resOfPointsSpec 450 ∧
      resOfPoints 450 * resOfPoints 450 ≤ 2 * 450 ∧
      2 * 450 < (resOfPoints 450 + 1) * (resOfPoints 450 + 1)) :=
  ⟨by norm_num, resOfPoints_floor_sqrt 450 30 (by norm_num)⟩

/-- C5: `discretize` fails with the ShapeError exactly when the number of
trajectory values differs from `resolution²`; and under the configured
relation `res² = 2·n_points`, ingestion fails with the ShapeError whenever
the truncated row count falls short of `n_points`. -/
theorem discretize_shape_error (t : List Val) (r : ℕ) (rows : List (ℚ × ℚ))
    (n res : ℕ) :
    (discretize t r = .error .shapeError ↔ t.length ≠ r * r) ∧
    (res * res = 2 * n → (rows.take n).length < n →
      ingestFile rows n res = .error .shapeError) := by
  constructor
  · unfold discretize
    split_ifs with h
    · simp [h]
    · simp [h]
  · intro hsq hlt
    unfold ingestFile discretize
    have hflat : ((normalizeTrunc rows n).flatMap (fun q => [q.1, q.2])).length
        = 2 * (rows.take n).length := by
      rw [length_flatMap_pair]
      unfold normalizeTrunc
      rw [List.length_map]
    have hne : ((normalizeTrunc rows n).flatMap (fun q => [q.1, q.2])).length ≠ res * res := by
      rw [hflat, hsq]
      omega
    rw [if_neg hne]

/-- Witness for C5 at concrete inputs. -/
theorem discretize_shape_error_witness :
    discretize [] 1 = .error .shapeError ∧
    ingestFile [((1:ℚ), 1)] 2 2 = .error .shapeError := by
  refine ⟨?_, ?_⟩
  · exact (discretize_shape_error [] 1 [((1:ℚ), 1)] 2 2).1.mpr (by simp)
  · exact (discretize_shape_error [] 1 [((1:ℚ), 1)] 2 2).2 (by norm_num) (by simp)

/-- C8: the modelled partitioner accepts an explicit RNG seed and is a pure
function of it: identical seeds produce identical shuffles, hence identical
training and validation subsets run-to-run. -/
theorem splitSeeded_deterministic {G L : Type} (s₁ s₂ : ℕ) (g : List G)
    (l : List L) (f : ℚ) (h : s₁ = s₂) :
    shuffleSeeded s₁ g l = shuffleSeeded s₂ g l ∧
    splitSeeded s₁ g l f = splitSeeded s₂ g l f := by
  subst h
  exact ⟨rfl, rfl⟩

/-- Witness for C8 at a concrete seed and dataset. -/
theorem splitSeeded_deterministic_witness :
    shuffleSeeded 7 ([10, 20, 30] : List ℕ) ([1, 0, 1] : List ℤ) =
      shuffleSeeded 7 [10, 20, 30] [1, 0, 1] ∧
    splitSeeded 7 ([10, 20, 30] : List ℕ) ([1, 0, 1] : List ℤ) (2/3) =
      splitSeeded 7 [10, 20, 30] [1, 0, 1] (2/3) :=
  splitSeeded_deterministic 7 7 _ _ _ rfl

/-- C9: when `int((1-frac)*Np) = 0` (for example `frac = 1`, or
`(1-frac)*Np < 1`), the validation slice `d[-0:]` is `d[0:]`: the entire
shuffled dataset, not the empty sequence. -/
theorem split_val_whole_on_zero {G L : Type} (g : List G) (l : List L) (f : ℚ)
    (h : pyInt ((1 - f) * (g.length : ℚ)) = 0) :
    (split g l f).2 = (g, l) := by
  have hv : valLen g.length f = 0 := by
    unfold valLen
    rw [h]
    rfl
  simp [split, hv, sliceFromNeg_zero]

/-- Witness for C9: `frac = 1` on a dataset of length 3. -/
theorem split_val_whole_on_zero_witness :
    pyInt ((1 - (1:ℚ)) * (([10, 20, 30] : List ℕ).length : ℚ)) = 0 ∧
    (split ([10, 20, 30] : List ℕ) ([1, 2, 3] : List ℤ) 1).2 = ([10, 20, 30], [1, 2, 3]) := by
  have h : pyInt ((1 - (1:ℚ)) * (([10, 20, 30] : List ℕ).length : ℚ)) = 0 := by
    norm_num [pyInt]
  exact ⟨h, split_val_whole_on_zero _ _ _ h⟩

/-- C1 counterexample: on a permuted dataset of length 5 with
`frac = 2/3`, the validation slice `d[-int((1-frac)*5):]` has length 1,
while the claim's `ceil((1 - 2/3) × 5)` is 2. -/
theorem split_val_not_ceil :
    (split ([0, 1, 2, 3, 4] : List ℕ) ([0, 1, 2, 3, 4] : List ℕ) (2/3)).2.1.length = 1 ∧
    ⌈(1 - (2:ℚ)/3) * (([0, 1, 2, 3, 4] : List ℕ).length : ℚ)⌉ = 2 ∧ (1 : ℕ) ≠ 2 := by
  have hkV : valLen 5 (2/3) = 1 := by
    simp only [valLen, pyInt]
    norm_num
  refine ⟨?_, ?_, by norm_num⟩
  · simp [split, hkV, sliceFromNeg]
  · simp only [List.length_cons, List.length_nil]
    rw [Int.ceil_eq_iff]
    norm_num

/-- C1 (amended): split takes the first `int(frac·N)` = ⌊frac·N⌋ permuted
entries as training and the last `int((1-frac)·N)` = ⌊(1-frac)·N⌋ permuted
entries as validation — truncation, not ceiling — whenever that truncated
count is at least 1 (when it is 0 the validation slice is instead the whole
permuted dataset); for N = 384, frac = 2/3 this yields lengths 256 and 128. -/
theorem split_lengths {G L : Type} (g : List G) (l : List L) (f : ℚ)
    (hl : l.length = g.length) (h0 : 0 ≤ f) (h1 : f ≤ 1) :
    (split g l f).1.1 = g.take (⌊f * (g.length : ℚ)⌋).toNat ∧
    (split g l f).1.1.length = (⌊f * (g.length : ℚ)⌋).toNat ∧
    (split g l f).1.2.length = (⌊f * (g.length : ℚ)⌋).toNat ∧
    (1 ≤ ⌊(1 - f) * (g.length : ℚ)⌋ →
      (split g l f).2.1 = g.drop (g.length - (⌊(1 - f) * (g.length : ℚ)⌋).toNat) ∧
      (split g l f).2.1.length = (⌊(1 - f) * (g.length : ℚ)⌋).toNat ∧
      (split g l f).2.2.length = (⌊(1 - f) * (g.length : ℚ)⌋).toNat) := by
  have hfnn : (0:ℚ) ≤ f * g.length := mul_nonneg h0 (Nat.cast_nonneg _)
  have hvnn : (0:ℚ) ≤ (1 - f) * g.length := mul_nonneg (by linarith) (Nat.cast_nonneg _)
  have hkT : trainLen g.length f = (⌊f * (g.length : ℚ)⌋).toNat := by
    unfold trainLen
    rw [pyInt_of_nonneg hfnn]
  have hkV : valLen g.length f = (⌊(1 - f) * (g.length : ℚ)⌋).toNat := by
    unfold valLen
    rw [pyInt_of_nonneg hvnn]
  have hTle : trainLen g.length f ≤ g.length := trainLen_le h0 h1
  have hVle : valLen g.length f ≤ g.length := valLen_le h0 h1
  refine ⟨?_, ?_, ?_, ?_⟩
  · simp [split, sliceTo, hkT]
  · show (sliceTo g (trainLen g.length f)).length = _
    rw [sliceTo, List.length_take, ← hkT]
    omega
  · show (sliceTo l (trainLen g.length f)).length = _
    rw [sliceTo, List.length_take, ← hkT]
    omega
  · intro hv1
    have hv1' : 1 ≤ valLen g.length f := by
      rw [hkV]
      omega
    refine ⟨?_, ?_, ?_⟩
    · show sliceFromNeg g (valLen g.length f) = _
      rw [sliceFromNeg_of_pos g (by omega), hkV]
    · show (sliceFromNeg g (valLen g.length f)).length = _
      rw [length_sliceFromNeg g hv1' hVle, hkV]
    · show (sliceFromNeg l (valLen g.length f)).length = _
      rw [length_sliceFromNeg l hv1' (by omega), hkV]

/-- Witness for C1 (amended): N = 384, frac = 2/3 gives a training subset of
length 256 and a validation subset of length 128. -/
theorem split_lengths_witness :
    (split (List.range 384) (List.range 384) (2/3)).1.1.length = 256 ∧
    (split (List.range 384) (List.range 384) (2/3)).2.1.length = 128 := by
  have h := split_lengths (List.range 384) (List.range 384) (2/3)
    (by simp) (by norm_num) (by norm_num)
  have hT : (⌊(2:ℚ)/3 * (((List.range 384).length : ℕ) : ℚ)⌋).toNat = 256 := by
    have : ⌊(2:ℚ)/3 * (((List.range 384).length : ℕ) : ℚ)⌋ = 256 := by
      simp only [List.length_range]
      norm_num
    rw [this]
    rfl
  have hVfl : ⌊(1 - (2:ℚ)/3) * (((List.range 384).length : ℕ) : ℚ)⌋ = 128 := by
    simp only [List.length_range]
    norm_num
  obtain ⟨-, h2, -, h4⟩ := h
  refine ⟨by rw [h2, hT], ?_⟩
  have h4' := h4 (by rw [hVfl]; norm_num)
  rw [h4'.2.1, hVfl]
  rfl

/-- C4 counterexample: on a permuted dataset of length 2 with the default
`frac = 2/3`, the grid at permuted index 0 lies in both the training subset
(`d[:1]`) and the validation subset (`d[-0:]`, the whole dataset), so the
two subsets are not disjoint. -/
theorem split_overlap_counterexample :
    (10 : ℕ) ∈ (split ([10, 20] : List ℕ) ([0, 1] : List ℤ) (2/3)).1.1 ∧
    (10 : ℕ) ∈ (split ([10, 20] : List ℕ) ([0, 1] : List ℤ) (2/3)).2.1 := by
  have hkT : trainLen 2 (2/3) = 1 := by
    simp only [trainLen, pyInt]
    norm_num
  have hkV : valLen 2 (2/3) = 0 := by
    simp only [valLen, pyInt]
    norm_num
  constructor
  · simp [split, sliceTo, hkT]
  · simp [split, hkV, sliceFromNeg_zero]

/-- Helper: the shuffled list decomposes as the training prefix, a middle
part, and the validation suffix, when the validation count is positive. -/
lemma take_mid_sliceFromNeg {α : Type} (l : List α) (kT kV : ℕ)
    (h : kT + kV ≤ l.length) (hk : 1 ≤ kV) :
    l.take kT ++ (l.take (l.length - kV)).drop kT ++ sliceFromNeg l kV = l := by
  rw [sliceFromNeg_of_pos l (by omega)]
  have h1 : kT ≤ l.length - kV := by omega
  have e1 : l.take kT = (l.take (l.length - kV)).take kT := by
    rw [List.take_take, min_eq_left h1]
  rw [e1, List.take_append_drop, List.take_append_drop]

/-- C4 (amended): whenever `int((1-frac)·N) ≥ 1`, the training and
validation subsets are disjoint index ranges of the one shuffled sequence —
a prefix and a suffix separated by a middle part; but when
`int((1-frac)·N) = 0` the validation slice `d[-0:]` is the whole dataset and
overlaps the training subset, so the claim does not hold for every fraction. -/
theorem split_disjoint {G L : Type} (g : List G) (l : List L) (f : ℚ)
    (hl : l.length = g.length) (h0 : 0 ≤ f) (h1 : f ≤ 1)
    (hv : 1 ≤ pyInt ((1 - f) * (g.length : ℚ))) :
    (∃ midg, (split g l f).1.1 ++ midg ++ (split g l f).2.1 = g) ∧
    (∃ midl, (split g l f).1.2 ++ midl ++ (split g l f).2.2 = l) := by
  have hsum := trainLen_add_valLen_le (n := g.length) h0 h1
  have hk1 : 1 ≤ valLen g.length f := by
    unfold valLen
    omega
  constructor
  · exact ⟨(g.take (g.length - valLen g.length f)).drop (trainLen g.length f),
      by simpa [split, sliceTo] using
        take_mid_sliceFromNeg g (trainLen g.length f) (valLen g.length f) hsum hk1⟩
  · have hsum' : trainLen g.length f + valLen g.length f ≤ l.length := by omega
    exact ⟨(l.take (l.length - valLen g.length f)).drop (trainLen g.length f),
      by simpa [split, sliceTo] using
        take_mid_sliceFromNeg l (trainLen g.length f) (valLen g.length f) hsum' hk1⟩

/-- Witness for C4 (amended) on a dataset of length 3 with `frac = 2/3`. -/
theorem split_disjoint_witness :
    (∃ midg, (split ([10, 20, 30] : List ℕ) ([1, 2, 3] : List ℤ) (2/3)).1.1 ++ midg ++
        (split ([10, 20, 30] : List ℕ) ([1, 2, 3] : List ℤ) (2/3)).2.1 = [10, 20, 30]) ∧
    (∃ midl, (split ([10, 20, 30] : List ℕ) ([1, 2, 3] : List ℤ) (2/3)).1.2 ++ midl ++
        (split ([10, 20, 30] : List ℕ) ([1, 2, 3] : List ℤ) (2/3)).2.2 = [1, 2, 3]) :=
  split_disjoint _ _ _ (by simp) (by norm_num) (by norm_num)
    (by simp only [List.length_cons, List.length_nil, pyInt]; norm_num)

/-- C6 counterexample: on a trajectory whose x-axis is identically zero, the
code still divides by the (zero) axis maximum, so every x-value becomes
non-finite (NaN, modelled `none`) rather than being left as-is. -/
theorem normalize_zero_axis_counterexample :
    (normalizeTrunc [((0:ℚ), 1), (0, 2)] 2).map Prod.fst = [none, none] ∧
    (normalizeTrunc [((0:ℚ), 1), (0, 2)] 2).map Prod.fst ≠ [some 0, some 0] := by
  have h : (normalizeTrunc [((0:ℚ), 1), (0, 2)] 2).map Prod.fst = [none, none] := by
    simp [normalizeTrunc, maxAbs, pyDiv]
  exact ⟨h, by rw [h]; simp⟩

/-- C6 (amended): normalization divides each coordinate axis by the maximum
absolute value observed on that axis over the truncated trajectory; when
that maximum is nonzero every value on the axis becomes the exact quotient,
but when the maximum is zero the division is still performed and every
value on the axis becomes non-finite (NaN, modelled `none`) — no exception
is raised, but the axis is not left as-is. -/
theorem normalize_axis (rows : List (ℚ × ℚ)) (n : ℕ) :
    (maxAbs ((rows.take n).map Prod.fst) ≠ 0 →
      (normalizeTrunc rows n).map Prod.fst =
        (rows.take n).map (fun p => some (p.1 / maxAbs ((rows.take n).map Prod.fst)))) ∧
    (maxAbs ((rows.take n).map Prod.fst) = 0 →
      (normalizeTrunc rows n).map Prod.fst = (rows.take n).map (fun _ => none)) ∧
    (maxAbs ((rows.take n).map Prod.snd) ≠ 0 →
      (normalizeTrunc rows n).map Prod.snd =
        (rows.take n).map (fun p => some (p.2 / maxAbs ((rows.take n).map Prod.snd)))) ∧
    (maxAbs ((rows.take n).map Prod.snd) = 0 →
      (normalizeTrunc rows n).map Prod.snd = (rows.take n).map (fun _ => none)) := by
  refine ⟨?_, ?_, ?_, ?_⟩ <;> intro h <;>
    · unfold normalizeTrunc
      rw [List.map_map]
      apply List.map_congr_left
      intro a ha
      simp only [Function.comp_apply, pyDiv, h, if_pos, if_neg, not_false_iff]

/-- Witness for C6 (amended): a trajectory with a zero x-axis and a nonzero
y-axis. -/
theorem normalize_axis_witness :
    (normalizeTrunc [((0:ℚ), 1), (0, 2)] 2).map Prod.snd =
      ([((0:ℚ), 1), (0, 2)].take 2).map
        (fun p => some (p.2 / maxAbs (([((0:ℚ), 1), (0, 2)].take 2).map Prod.snd))) ∧
    (normalizeTrunc [((0:ℚ), 1), (0, 2)] 2).map Prod.fst =
      ([((0:ℚ), 1), (0, 2)].take 2).map (fun _ => none) := by
  have h := normalize_axis [((0:ℚ), 1), (0, 2)] 2
  refine ⟨h.2.2.1 ?_, h.2.1 ?_⟩
  · simp [maxAbs]
  · simp [maxAbs]

/-- C7: ingesting a 450-row two-column trajectory with `n_points = 450` and
`res = 30` whose axis maxima are nonzero yields a grid of shape 30 × 30
(with the trailing singleton channel added downstream), all of whose values
are finite and lie within [-1, 1]. -/
theorem ingest450_bounds (rows : List (ℚ × ℚ)) (hlen : rows.length = 450)
    (hx : maxAbs ((rows.take 450).map Prod.fst) ≠ 0)
    (hy : maxAbs ((rows.take 450).map Prod.snd) ≠ 0) :
    ∃ g : Grid, ingestFile rows 450 30 = .ok g ∧ g.res = 30 ∧
      g.withChannel.length = 30 ∧
      (∀ row ∈ g.withChannel, row.length = 30 ∧ ∀ c ∈ row, c.length = 1) ∧
      (∀ v ∈ g.data, ∃ q : ℚ, v = some q ∧ -1 ≤ q ∧ q ≤ 1) := by
  have htlen : (rows.take 450).length = 450 := by
    rw [List.length_take, hlen]
    omega
  have hflen : ((normalizeTrunc rows 450).flatMap (fun q => [q.1, q.2])).length = 30 * 30 := by
    rw [length_flatMap_pair]
    unfold normalizeTrunc
    rw [List.length_map, htlen]
  refine ⟨⟨30, (normalizeTrunc rows 450).flatMap (fun q => [q.1, q.2])⟩, ?_, rfl, ?_, ?_, ?_⟩
  · unfold ingestFile discretize
    rw [if_pos hflen]
  · obtain ⟨hcl, -⟩ := chunkAux_spec 30 (by norm_num) 30
      ((normalizeTrunc rows 450).flatMap (fun q => [q.1, q.2])) hflen
    show ((chunkAux 30 30 _).map _).length = 30
    rw [List.length_map]
    exact hcl
  · obtain ⟨-, hcr⟩ := chunkAux_spec 30 (by norm_num) 30
      ((normalizeTrunc rows 450).flatMap (fun q => [q.1, q.2])) hflen
    intro row hrow
    rcases List.mem_map.mp hrow with ⟨r0, hr0, hre⟩
    constructor
    · rw [← hre, List.length_map]
      exact hcr r0 hr0
    · intro c hc
      rw [← hre] at hc
      rcases List.mem_map.mp hc with ⟨v, -, hve⟩
      rw [← hve]
      rfl
  · intro v hv
    rcases List.mem_flatMap.mp hv with ⟨q, hq, hvq⟩
    unfold normalizeTrunc at hq
    rcases List.mem_map.mp hq with ⟨pt, hpt, hqe⟩
    have hcases : v = pyDiv pt.1 (maxAbs ((rows.take 450).map Prod.fst)) ∨
        v = pyDiv pt.2 (maxAbs ((rows.take 450).map Prod.snd)) := by
      rw [← hqe] at hvq
      simpa using hvq
    rcases hcases with hc | hc
    · refine ⟨pt.1 / maxAbs ((rows.take 450).map Prod.fst), by rw [hc, pyDiv, if_neg hx], ?_, ?_⟩ <;>
      · have h1 : |pt.1| ≤ maxAbs ((rows.take 450).map Prod.fst) :=
          abs_le_maxAbs (List.mem_map_of_mem Prod.fst hpt)
        have h0 : 0 < maxAbs ((rows.take 450).map Prod.fst) :=
          lt_of_le_of_ne (maxAbs_nonneg _) (Ne.symm hx)
        have hb : |pt.1 / maxAbs ((rows.take 450).map Prod.fst)| ≤ 1 := by
          rw [abs_div, abs_of_pos h0]
          exact (div_le_one h0).mpr h1
        have h2 := abs_le.mp hb
        linarith [h2.1, h2.2]
    · refine ⟨pt.2 / maxAbs ((rows.take 450).map Prod.snd), by rw [hc, pyDiv, if_neg hy], ?_, ?_⟩ <;>
      · have h1 : |pt.2| ≤ maxAbs ((rows.take 450).map Prod.snd) :=
          abs_le_maxAbs (List.mem_map_of_mem Prod.snd hpt)
        have h0 : 0 < maxAbs ((rows.take 450).map Prod.snd) :=
          lt_of_le_of_ne (maxAbs_nonneg _) (Ne.symm hy)
        have hb : |pt.2 / maxAbs ((rows.take 450).map Prod.snd)| ≤ 1 := by
          rw [abs_div, abs_of_pos h0]
          exact (div_le_one h0).mpr h1
        have h2 := abs_le.mp hb
        linarith [h2.1, h2.2]

/-- Witness for C7: a 450-row file whose coordinates are all 1. -/
theorem ingest450_bounds_witness :
    ∃ g : Grid, ingestFile (List.replicate 450 (((1:ℚ), (1:ℚ)))) 450 30 = .ok g ∧ g.res = 30 ∧
      g.withChannel.length = 30 ∧
      (∀ row ∈ g.withChannel, row.length = 30 ∧ ∀ c ∈ row, c.length = 1) ∧
      (∀ v ∈ g.data, ∃ q : ℚ, v = some q ∧ -1 ≤ q ∧ q ≤ 1) := by
  have hmx : ((List.replicate 450 (((1:ℚ), (1:ℚ)))).take 450).map Prod.fst =
      List.replicate 450 (1:ℚ) := by
    rw [List.take_replicate, min_self, List.map_replicate]
  have hmy : ((List.replicate 450 (((1:ℚ), (1:ℚ)))).take 450).map Prod.snd =
      List.replicate 450 (1:ℚ) := by
    rw [List.take_replicate, min_self, List.map_replicate]
  have hne : maxAbs (List.replicate 450 (1:ℚ)) ≠ 0 := by
    intro h0
    have hmem : (1:ℚ) ∈ List.replicate 450 (1:ℚ) := by
      rw [List.mem_replicate]
      norm_num
    have hle := abs_le_maxAbs hmem
    rw [h0] at hle
    norm_num at hle
  exact ingest450_bounds (List.replicate 450 (((1:ℚ), (1:ℚ)))) (by rw [List.length_replicate])
    (by rw [hmx]; exact hne) (by rw [hmy]; exact hne)

/-- C10: when `res² = 2·n_points` and the file supplies at least `n_points`
rows, ingestion succeeds and cell `(i, j)` of the resulting grid is the
row-major flat entry `m = res·i + j` of the interleaved normalized sequence
x₀, y₀, x₁, y₁, …: the normalized x-coordinate of point `m/2` when `m` is
even, and the normalized y-coordinate of point `(m-1)/2` when `m` is odd. -/
theorem ingest_interleave (rows : List (ℚ × ℚ)) (n res : ℕ)
    (hsq : res * res = 2 * n) (hn : n ≤ rows.length) :
    ∃ g : Grid, ingestFile rows n res = .ok g ∧ g.res = res ∧
      ∀ i j, i < res → j < res →
        g.cell i j =
          if (res * i + j) % 2 = 0 then
            ((rows.take n)[(res * i + j) / 2]?).map
              (fun p => pyDiv p.1 (maxAbs ((rows.take n).map Prod.fst)))
          else
            ((rows.take n)[(res * i + j - 1) / 2]?).map
              (fun p => pyDiv p.2 (maxAbs ((rows.take n).map Prod.snd))) := by
  have htlen : (rows.take n).length = n := by
    rw [List.length_take]
    omega
  have hflen : ((normalizeTrunc rows n).flatMap (fun q => [q.1, q.2])).length = res * res := by
    rw [length_flatMap_pair]
    unfold normalizeTrunc
    rw [List.length_map, htlen, hsq]
  refine ⟨⟨res, (normalizeTrunc rows n).flatMap (fun q => [q.1, q.2])⟩, ?_, rfl, ?_⟩
  · unfold ingestFile discretize
    rw [if_pos hflen]
  · intro i j hi hj
    show ((normalizeTrunc rows n).flatMap (fun q => [q.1, q.2]))[res * i + j]? = _
    unfold normalizeTrunc
    rw [List.flatMap_map, getElem?_flatMap_pair]
    by_cases hm : (res * i + j) % 2 = 0
    · rw [if_pos hm, if_pos hm]
    · rw [if_neg hm, if_neg hm]
      have he : (res * i + j) / 2 = (res * i + j - 1) / 2 := by omega
      rw [he]

/-- Witness for C10 on a two-point file with `n_points = 2`, `res = 2`. -/
theorem ingest_interleave_witness :
    ∃ g : Grid, ingestFile ([((1:ℚ), 2), (3, 4)] : List (ℚ × ℚ)) 2 2 = .ok g ∧ g.res = 2 ∧
      ∀ i j, i < 2 → j < 2 →
        g.cell i j =
          if (2 * i + j) % 2 = 0 then
            ((([((1:ℚ), 2), (3, 4)] : List (ℚ × ℚ)).take 2)[(2 * i + j) / 2]?).map
              (fun p => pyDiv p.1 (maxAbs ((([((1:ℚ), 2), (3, 4)] : List (ℚ × ℚ)).take 2).map Prod.fst)))
          else
            ((([((1:ℚ), 2), (3, 4)] : List (ℚ × ℚ)).take 2)[(2 * i + j - 1) / 2]?).map
              (fun p => pyDiv p.2 (maxAbs ((([((1:ℚ), 2), (3, 4)] : List (ℚ × ℚ)).take 2).map Prod.snd))) :=
  ingest_interleave ([((1:ℚ), 2), (3, 4)] : List (ℚ × ℚ)) 2 2 (by norm_num) (by simp)

/-- C2: grid and label sequences stay equal-length and index-wise paired
through every stage — assembly produces one grid and one label per curated
entry; the shuffle applies one identical permutation to both sequences, so
each shuffled (grid, label) pair is an original pair; the split slices both
sequences identically; and ingestion appends one grid and one label per
file, where grid k is ingested from file k's rows and label k is file k's
own label. -/
theorem dataset_pairing_invariant {G L P : Type} (p : List ℕ) (g : List G)
    (l : List L) (f : ℚ) (files : List (List (ℚ × ℚ) × ℤ)) (n res : ℕ)
    (entries : List (P × ℤ)) (mk : P → Grid) (orbits : List Grid) (labs : List ℤ)
    (hlen : g.length = l.length) (hp : ∀ i ∈ p, i < g.length)
    (hing : ingestAll files n res = .ok (orbits, labs)) :
    (assemble entries mk).1.length = (assemble entries mk).2.length ∧
    (∀ k : ℕ, ((assemble entries mk).1)[k]? = (entries[k]?).map (fun e => mk e.1) ∧
      ((assemble entries mk).2)[k]? = (entries[k]?).map (fun e => e.2)) ∧
    (applyPerm p g).length = (applyPerm p l).length ∧
    List.zip (applyPerm p g) (applyPerm p l) = applyPerm p (List.zip g l) ∧
    (∀ pr ∈ List.zip (applyPerm p g) (applyPerm p l), pr ∈ List.zip g l) ∧
    (split g l f).1.1.length = (split g l f).1.2.length ∧
    (split g l f).2.1.length = (split g l f).2.2.length ∧
    (∀ pr ∈ List.zip (split g l f).1.1 (split g l f).1.2, pr ∈ List.zip g l) ∧
    (∀ pr ∈ List.zip (split g l f).2.1 (split g l f).2.2, pr ∈ List.zip g l) ∧
    orbits.length = labs.length ∧
    (∀ k : ℕ, labs[k]? = (files[k]?).map (fun fl => fl.2) ∧
      orbits[k]? = (files[k]?).bind (fun fl => (ingestFile fl.1 n res).toOption)) := by
  have hzip := zip_applyPerm p g l hlen
  refine ⟨?_, ?_, ?_, hzip, ?_, ?_, ?_, ?_, ?_,
    ingestAll_lengths files n res orbits labs hing,
    ingestAll_pairing files n res orbits labs hing⟩
  · simp [assemble]
  · intro k
    constructor <;> simp [assemble]
  · rw [length_applyPerm p g hp,
      length_applyPerm p l (fun i hi => by have := hp i hi; omega)]
  · intro pr hpr
    rw [hzip] at hpr
    exact mem_of_mem_applyPerm hpr
  · simp [split, sliceTo, List.length_take, hlen]
  · simp only [split]
    by_cases hv : valLen g.length f = 0
    · rw [hv, sliceFromNeg_zero, sliceFromNeg_zero]
      exact hlen
    · rw [sliceFromNeg_of_pos g hv, sliceFromNeg_of_pos l hv,
        List.length_drop, List.length_drop, hlen]
  · intro pr hpr
    simp only [split, sliceTo] at hpr
    rw [zip_take] at hpr
    exact List.take_subset _ _ hpr
  · intro pr hpr
    simp only [split] at hpr
    by_cases hv : valLen g.length f = 0
    · rw [hv, sliceFromNeg_zero, sliceFromNeg_zero] at hpr
      exact hpr
    · rw [sliceFromNeg_of_pos g hv, sliceFromNeg_of_pos l hv, ← hlen, zip_drop] at hpr
      exact List.drop_subset _ _ hpr

/-- Witness for C2 at a concrete dataset, permutation and ingestion batch. -/
theorem dataset_pairing_invariant_witness :
    (∀ pr ∈ List.zip (applyPerm [1, 0] ([10, 20] : List ℕ)) (applyPerm [1, 0] ([5, 6] : List ℤ)),
      pr ∈ List.zip ([10, 20] : List ℕ) ([5, 6] : List ℤ)) ∧
    ([Grid.mk 2 [some 1, some 1, some 1, some 1]] : List Grid).length = ([(1:ℤ)] : List ℤ).length ∧
    ([(1:ℤ)] : List ℤ)[0]? =
      (([([((1:ℚ), 1), (1, 1)], (1:ℤ))] : List (List (ℚ × ℚ) × ℤ))[0]?).map (fun fl => fl.2) ∧
    ([Grid.mk 2 [some 1, some 1, some 1, some 1]] : List Grid)[0]? =
      (([([((1:ℚ), 1), (1, 1)], (1:ℤ))] : List (List (ℚ × ℚ) × ℤ))[0]?).bind
        (fun fl => (ingestFile fl.1 2 2).toOption) := by
  have hing : ingestAll [([((1:ℚ), 1), (1, 1)], (1:ℤ))] 2 2 =
      .ok ([Grid.mk 2 [some 1, some 1, some 1, some 1]], [1]) := by
    simp [ingestAll, ingestFile, discretize, normalizeTrunc, maxAbs, pyDiv]
  have h := dataset_pairing_invariant [1, 0] ([10, 20] : List ℕ) ([5, 6] : List ℤ)
    (2/3) [([((1:ℚ), 1), (1, 1)], (1:ℤ))] 2 2 [((0:ℕ), (1:ℤ))] (fun _ => Grid.mk 0 [])
    [Grid.mk 2 [some 1, some 1, some 1, some 1]] [1] (by simp) (by decide) hing
  exact ⟨h.2.2.2.2.1, h.2.2.2.2.2.2.2.2.2.1,
    (h.2.2.2.2.2.2.2.2.2.2 0).1, (h.2.2.2.2.2.2.2.2.2.2 0).2⟩

end ChaosDC
